import Mathlib

/-!
Verification development for the `music_comb` MIDI comb visualizer
(`src/main.rs`).  The core of the program is modelled shallowly:

* times, durations and pixel coordinates (`f32` in the source) are modelled
  as exact rationals `ℚ`;
* the transcendental spacing model `calculate_spacing`
  (`440 * 2^((n-69)/12)` over `f32`) is modelled exactly over `ℝ`;
  the segment sweep and tooth emission, which only compare and add the
  spacing values they are given, are modelled parametrically in a spacing
  function `sp : ℕ → ℚ` (standing for `self.calculate_spacing`);
* the `f32` while loop of `generate_svg` is modelled by a fuel-indexed
  loop together with a proof that the fuel bound is reached;
* `f32::EPSILON` is the exact rational `2⁻²³`.
-/

namespace MusicComb

/-- Model of `struct MidiNote { pitch: u8, start_time: f32, duration: f32 }`. -/
structure MidiNote where
  pitch : ℕ
  start_time : ℚ
  duration : ℚ
deriving DecidableEq

/-- Model of `struct TrackData { name: String, notes: Vec<MidiNote> }`. -/
structure TrackData where
  name : String
  notes : List MidiNote
deriving DecidableEq

/-- Model of the fields of `struct MidiVisualizer` that the pure core
(`get_comb_segments` / `generate_svg`) reads.  `ref_note` and `ref_spacing`
only enter through `calculate_spacing`, which is modelled separately over
`ℝ`; the sweep receives the spacing model as a function parameter. -/
structure MidiVisualizer where
  tracks : Option (List TrackData)
  selected_track : ℕ
  ref_note : ℤ
  ref_spacing : ℚ
  px_per_beat : ℚ
deriving DecidableEq

/-- Model of `struct CombSegment { start_time: f32, end_time: f32, spacing: f32 }`. -/
structure CombSegment where
  start_time : ℚ
  end_time : ℚ
  spacing : ℚ
deriving DecidableEq

/-- Model of the local `enum EventType { On, Off }` of `get_comb_segments`.
The Rust `derive(Ord)` order is declaration order: `On < Off`. -/
inductive EventType where
  | On : EventType
  | Off : EventType
deriving DecidableEq

/-- Model of the local `struct Event { time: f32, kind: EventType, pitch: u8 }`. -/
structure Event where
  time : ℚ
  kind : EventType
  pitch : ℕ
deriving DecidableEq

/-- Model of the event-building loop of `get_comb_segments`: for each note,
an `On` event at `start_time` and an `Off` event at `start_time + duration`
are pushed, in note order. -/
def eventsOf : List MidiNote → List Event
  | [] => []
  | n :: rest =>
      ⟨n.start_time, EventType.On, n.pitch⟩ ::
        ⟨n.start_time + n.duration, EventType.Off, n.pitch⟩ :: eventsOf rest

/-- The strict order corresponding to the comparator passed to
`events.sort_by`: primary key the timestamp, secondary key the event kind
with `On < Off` (the derived order of `EventType`). -/
def evLtb (a b : Event) : Bool :=
  decide (a.time < b.time) ||
    (decide (a.time = b.time) && decide (a.kind = EventType.On)
      && decide (b.kind = EventType.Off))

/-- The non-strict order on event kinds induced by the derived Rust order
`On < Off`. -/
def kindLe : EventType → EventType → Prop
  | EventType.On, _ => True
  | EventType.Off, EventType.Off => True
  | EventType.Off, EventType.On => False

/-- The non-strict version of the event comparator: `(time, kind)`
lexicographic with `On` at or before `Off`. -/
def evLe (a b : Event) : Prop :=
  a.time < b.time ∨ (a.time = b.time ∧ kindLe a.kind b.kind)

/-- Stable insertion of an event into an already sorted list: the new
event is placed before the first element that is not strictly below it,
so elements comparing equal keep their original relative order, as with
Rust's stable `sort_by`. -/
def insertEvent (e : Event) : List Event → List Event
  | [] => [e]
  | f :: l => if evLtb f e then f :: insertEvent e l else e :: f :: l

/-- Model of `events.sort_by(...)` in `get_comb_segments`: a stable sort
by `(time, kind)` with `On` ordered before `Off`. -/
def sortEvents : List Event → List Event
  | [] => []
  | e :: l => insertEvent e (sortEvents l)

/-- Maximum of a pitch list; models `active_pitches.iter().last()` on the
`BTreeSet` (`none` exactly when the set is empty). -/
def listMax : List ℕ → Option ℕ
  | [] => none
  | x :: xs =>
      match listMax xs with
      | none => some x
      | some m => some (max x m)

/-- Set-semantics insertion; models `BTreeSet::insert` (inserting an
element already present is a no-op). -/
def setInsert (x : ℕ) (l : List ℕ) : List ℕ :=
  if x ∈ l then l else x :: l

/-- Set-semantics removal; models `BTreeSet::remove`. -/
def setRemove (x : ℕ) : List ℕ → List ℕ
  | [] => []
  | y :: l => if y = x then l else y :: setRemove x l

/-- State of the sweep loop of `get_comb_segments`: the segments emitted
so far, the active pitch set, and `last_time`. -/
structure SweepState where
  segments : List CombSegment
  active : List ℕ
  lastTime : ℚ
deriving DecidableEq

/-- One iteration of the sweep loop of `get_comb_segments`: if time
advanced strictly past `last_time` and the active set is non-empty, a
segment from `last_time` to the event's time is emitted with the spacing
of the highest active pitch; then the event is applied to the active set
and `last_time` is updated. -/
def sweepStep (sp : ℕ → ℚ) (st : SweepState) (e : Event) : SweepState :=
  let segs :=
    if st.lastTime < e.time then
      match listMax st.active with
      | some h => st.segments ++ [⟨st.lastTime, e.time, sp h⟩]
      | none => st.segments
    else st.segments
  let act :=
    match e.kind with
    | EventType.On => setInsert e.pitch st.active
    | EventType.Off => setRemove e.pitch st.active
  ⟨segs, act, e.time⟩

/-- The sweep pass of `get_comb_segments`: `last_time` starts at the first
event's time (`0` for no events) and the events are folded through
`sweepStep`. -/
def sweepSegments (sp : ℕ → ℚ) (evs : List Event) : List CombSegment :=
  let last0 : ℚ :=
    match evs with
    | [] => 0
    | e :: _ => e.time
  (evs.foldl (sweepStep sp) ⟨[], [], last0⟩).segments

/-- Exact value of `f32::EPSILON`. -/
def f32Eps : ℚ := 1 / 2 ^ 23

/-- The merge loop of `get_comb_segments`: `cur` is the accumulating
segment; a following segment is absorbed when both its spacing and its
start are within `f32::EPSILON` of `cur`'s spacing and end. -/
def mergeLoop (cur : CombSegment) : List CombSegment → List CombSegment
  | [] => [cur]
  | next :: rest =>
      if abs (next.spacing - cur.spacing) < f32Eps ∧
          abs (next.start_time - cur.end_time) < f32Eps then
        mergeLoop ⟨cur.start_time, next.end_time, cur.spacing⟩ rest
      else cur :: mergeLoop next rest

/-- The merge pass of `get_comb_segments` (`segments` empty yields an
empty result, otherwise the head seeds `mergeLoop`). -/
def mergeSegments : List CombSegment → List CombSegment
  | [] => []
  | s :: rest => mergeLoop s rest

/-- The note-level core of `get_comb_segments` (the spec's
`build_segments`): empty-note early return, event expansion, stable sort,
sweep, merge.  `sp` stands for `self.calculate_spacing`. -/
def build_segments (sp : ℕ → ℚ) (notes : List MidiNote) : List CombSegment :=
  if notes = [] then []
  else mergeSegments (sweepSegments sp (sortEvents (eventsOf notes)))

/-- Model of `get_comb_segments`: guards for a missing file, an
out-of-range track index, or an empty note list, then `build_segments`. -/
def get_comb_segments (sp : ℕ → ℚ) (v : MidiVisualizer) : List CombSegment :=
  match v.tracks with
  | none => []
  | some ts =>
      match ts[v.selected_track]? with
      | none => []
      | some td => build_segments sp td.notes

/-- Fuel-indexed model of the tooth `while` loop of `generate_svg`:
`while current_x_abs < end_x { push current_x_abs; current_x_abs += spacing }`.
The fuel argument only bounds the number of iterations; `tooth_fuel`
below always supplies enough for the loop to run to completion. -/
def tooth_loop (fuel : ℕ) (endX spacing cur : ℚ) : List ℚ :=
  match fuel with
  | 0 => []
  | f + 1 => if cur < endX then cur :: tooth_loop f endX spacing (cur + spacing) else []

/-- Model of `let first_tooth_index = (start_x / spacing).ceil() as i64`. -/
def first_tooth_index (startX spacing : ℚ) : ℤ :=
  Int.ceil (startX / spacing)

/-- Enough fuel for the tooth loop of one segment: one more than the
number of spacing steps from the first tooth to `end_x`. -/
def tooth_fuel (startX endX spacing : ℚ) : ℕ :=
  (Int.ceil ((endX - (first_tooth_index startX spacing : ℚ) * spacing) / spacing)).toNat + 1

/-- Absolute tooth positions of one segment of `generate_svg`: skip the
segment when `spacing <= 0.1`, otherwise run the stepping loop from the
smallest multiple of `spacing` at or above `start_x`. -/
def emit_teeth (startX endX spacing : ℚ) : List ℚ :=
  if 1 / 10 < spacing then
    tooth_loop (tooth_fuel startX endX spacing) endX spacing
      ((first_tooth_index startX spacing : ℚ) * spacing)
  else []

/-- Emitted line x-coordinates of one segment in `generate_svg`: absolute
tooth positions translated by `x_offset`, keeping those at or above
`-f32::EPSILON`. -/
def segment_line_xs (seg : CombSegment) (xOffset ppb : ℚ) : List ℚ :=
  ((emit_teeth (seg.start_time * ppb) (seg.end_time * ppb) seg.spacing).map
      (fun x => x - xOffset)).filter (fun x => decide (-f32Eps ≤ x))

/-- Concatenation of per-segment line lists. -/
def concatLists : List (List ℚ) → List ℚ
  | [] => []
  | l :: ls => l ++ concatLists ls

/-- All line x-coordinates written by `generate_svg`, in emission order.
`x_offset` is the first segment's start time scaled by `px_per_beat`. -/
def svg_line_xs (sp : ℕ → ℚ) (v : MidiVisualizer) : List ℚ :=
  match get_comb_segments sp v with
  | [] => []
  | s0 :: rest =>
      concatLists ((s0 :: rest).map
        (fun seg => segment_line_xs seg (s0.start_time * v.px_per_beat) v.px_per_beat))

/-- Model of Rust's `{:.2}` fixed-point formatting, used only to build the
output strings: the value rounded to the nearest hundredth (halves up) and
printed with two decimals. -/
def fmt2 (q : ℚ) : String :=
  let n : ℤ := Int.floor (q * 100 + 1 / 2)
  let sgn := if n < 0 then "-" else ""
  let m := n.natAbs
  sgn ++ toString (m / 100) ++ "." ++ (if m % 100 < 10 then "0" else "") ++ toString (m % 100)

/-- One `<line .../>` element of the exported SVG. -/
def lineElem (x : ℚ) : String :=
  "<line x1=\"" ++ fmt2 x ++ "\" y1=\"0\" x2=\"" ++ fmt2 x ++
    "\" y2=\"100\" stroke=\"black\" stroke-width=\"0.5\" />"

/-- The fixed document `generate_svg` returns when there are no segments. -/
def emptySvg : String :=
  "<svg xmlns=\"http://www.w3.org/2000/svg\" width=\"50\" height=\"100\"></svg>"

/-- Model of the `max_x` accumulation of `generate_svg` (initial value `0.0`,
updated with every segment's `end_x` regardless of the spacing guard). -/
def maxEndX (segs : List CombSegment) (ppb : ℚ) : ℚ :=
  segs.foldl (fun m seg => max m (seg.end_time * ppb)) 0

/-- Model of `generate_svg`: the fixed empty document when there are no
segments, otherwise the line elements for `svg_line_xs` wrapped in an
`<svg>` root whose width is the maximal segment end minus `x_offset`
plus `50`. -/
def generate_svg (sp : ℕ → ℚ) (v : MidiVisualizer) : String :=
  match get_comb_segments sp v with
  | [] => emptySvg
  | s0 :: rest =>
      let xOffset := s0.start_time * v.px_per_beat
      let totalWidth := maxEndX (s0 :: rest) v.px_per_beat - xOffset
      "<svg xmlns=\"http://www.w3.org/2000/svg\" width=\"" ++ fmt2 (totalWidth + 50) ++
        "\" height=\"100\">" ++ String.join ((svg_line_xs sp v).map lineElem) ++ "</svg>"

/-- Frequency of a pitch: `440 * 2^((p - 69) / 12)`, the body of
`calculate_spacing` modelled exactly over `ℝ`. -/
noncomputable def noteFreq (p : ℝ) : ℝ := 440 * (2 : ℝ) ^ ((p - 69) / 12)

/-- Model of `calculate_spacing`: `ref_spacing * (ref_freq / note_freq)`. -/
noncomputable def calculate_spacing (ref_note : ℤ) (ref_spacing : ℝ) (pitch : ℕ) : ℝ :=
  ref_spacing * (noteFreq (ref_note : ℝ) / noteFreq (pitch : ℝ))

/-! ### Lemmas about the tooth stepping loop -/

theorem tooth_loop_succ (f : ℕ) (e s c : ℚ) :
    tooth_loop (f + 1) e s c = if c < e then c :: tooth_loop f e s (c + s) else [] := rfl

theorem tooth_loop_head (f : ℕ) (e s c : ℚ) :
    tooth_loop f e s c = [] ∨ (tooth_loop f e s c).head? = some c := by
  cases f with
  | zero => exact Or.inl rfl
  | succ f =>
    by_cases h : c < e
    · right
      rw [tooth_loop_succ, if_pos h]
      rfl
    · left
      rw [tooth_loop_succ, if_neg h]

theorem tooth_loop_chain (e s : ℚ) :
    ∀ (f : ℕ) (c : ℚ), List.Chain' (fun a b => b = a + s) (tooth_loop f e s c) := by
  intro f
  induction f with
  | zero => intro c; simp [tooth_loop]
  | succ f ih =>
    intro c
    by_cases h : c < e
    · rw [tooth_loop_succ, if_pos h]
      rcases tooth_loop_head f e s (c + s) with h0 | h0
      · rw [h0]
        simp
      · refine List.chain'_cons'.mpr ⟨?_, ih (c + s)⟩
        intro y hy
        rw [h0] at hy
        simp only [Option.mem_def, Option.some.injEq] at hy
        exact hy.symm
    · rw [tooth_loop_succ, if_neg h]
      simp

theorem tooth_loop_mem (e s : ℚ) :
    ∀ (f : ℕ) (c x : ℚ), x ∈ tooth_loop f e s c → (∃ k : ℕ, x = c + (k : ℚ) * s) ∧ x < e := by
  intro f
  induction f with
  | zero => intro c x hx; simp [tooth_loop] at hx
  | succ f ih =>
    intro c x hx
    rw [tooth_loop_succ] at hx
    by_cases h : c < e
    · rw [if_pos h] at hx
      rcases List.mem_cons.mp hx with rfl | hx
      · exact ⟨⟨0, by push_cast; ring⟩, h⟩
      · obtain ⟨⟨k, hk⟩, hlt⟩ := ih (c + s) x hx
        exact ⟨⟨k + 1, by rw [hk]; push_cast; ring⟩, hlt⟩
    · rw [if_neg h] at hx
      simp at hx

theorem tooth_loop_mem_of (e s : ℚ) (hs : 0 < s) :
    ∀ (f n : ℕ) (c : ℚ), n < f → c + (n : ℚ) * s < e →
      c + (n : ℚ) * s ∈ tooth_loop f e s c := by
  intro f
  induction f with
  | zero => intro n c hn; exact absurd hn (Nat.not_lt_zero n)
  | succ f ih =>
    intro n c hn hlt
    have hstep : c ≤ c + (n : ℚ) * s := by
      have : (0 : ℚ) ≤ (n : ℚ) * s := by positivity
      linarith
    have hc : c < e := lt_of_le_of_lt hstep hlt
    rw [tooth_loop_succ, if_pos hc]
    cases n with
    | zero =>
      simp
    | succ n =>
      refine List.mem_cons_of_mem _ ?_
      have h1 : (c + s) + (n : ℚ) * s = c + ((n : ℕ) + 1 : ℚ) * s := by ring
      have h2 : c + ((n : ℕ) + 1 : ℚ) * s < e := by push_cast at hlt ⊢; linarith
      have := ih n (c + s) (by omega) (by rw [h1]; exact h2)
      rw [h1] at this
      convert this using 2
      push_cast
      ring

theorem tooth_loop_stable (e s : ℚ) :
    ∀ (f : ℕ) (c : ℚ), e ≤ c + (f : ℚ) * s → ∀ g : ℕ, f ≤ g →
      tooth_loop g e s c = tooth_loop f e s c := by
  intro f
  induction f with
  | zero =>
    intro c hc g _
    have hce : ¬ c < e := by push_cast at hc; exact not_lt.mpr (by linarith)
    cases g with
    | zero => rfl
    | succ g => rw [tooth_loop_succ, if_neg hce]; rfl
  | succ f ih =>
    intro c hc g hg
    obtain ⟨g, rfl⟩ : ∃ g0, g = g0 + 1 := ⟨g - 1, by omega⟩
    rw [tooth_loop_succ, tooth_loop_succ]
    by_cases h : c < e
    · rw [if_pos h, if_pos h, ih (c + s) (by push_cast at hc ⊢; linarith) g (by omega)]
    · rw [if_neg h, if_neg h]

theorem tooth_fuel_spec (startX endX spacing : ℚ) (h : 0 < spacing) :
    endX ≤ (first_tooth_index startX spacing : ℚ) * spacing +
      (tooth_fuel startX endX spacing : ℚ) * spacing := by
  have h1 : (endX - (first_tooth_index startX spacing : ℚ) * spacing) / spacing ≤
      (((Int.ceil ((endX - (first_tooth_index startX spacing : ℚ) * spacing) / spacing)).toNat : ℤ) : ℚ) := by
    refine le_trans (Int.le_ceil _) ?_
    exact_mod_cast Int.self_le_toNat _
  have h2 := (div_le_iff₀ h).mp h1
  unfold tooth_fuel
  push_cast at h2 ⊢
  linarith

/-- C8: with spacing above the `0.1` guard, the tooth `while` loop of
`generate_svg` terminates: the stepped position exceeds `end_x` after
finitely many steps, past which extra fuel never changes the emitted list
(the model of the loop is therefore a total function, as is the whole of
`generate_svg`). -/
theorem c8_tooth_loop_terminates (endX spacing cur : ℚ) (h : 1 / 10 < spacing) :
    ∃ f : ℕ, endX ≤ cur + (f : ℚ) * spacing ∧
      ∀ g : ℕ, f ≤ g → tooth_loop g endX spacing cur = tooth_loop f endX spacing cur := by
  have hs : (0 : ℚ) < spacing := lt_trans (by norm_num) h
  refine ⟨(Int.ceil ((endX - cur) / spacing)).toNat, ?_, ?_⟩
  · have h1 : (endX - cur) / spacing ≤
        (((Int.ceil ((endX - cur) / spacing)).toNat : ℤ) : ℚ) := by
      refine le_trans (Int.le_ceil _) ?_
      exact_mod_cast Int.self_le_toNat _
    have h2 := (div_le_iff₀ hs).mp h1
    push_cast at h2 ⊢
    linarith
  · intro g hg
    refine tooth_loop_stable endX spacing _ cur ?_ g hg
    have h1 : (endX - cur) / spacing ≤
        (((Int.ceil ((endX - cur) / spacing)).toNat : ℤ) : ℚ) := by
      refine le_trans (Int.le_ceil _) ?_
      exact_mod_cast Int.self_le_toNat _
    have h2 := (div_le_iff₀ hs).mp h1
    push_cast at h2 ⊢
    linarith

theorem c8_witness :
    (1 : ℚ) / 10 < 2 ∧
      ∃ f : ℕ, (7 : ℚ) ≤ 3 + (f : ℚ) * 2 ∧
        ∀ g : ℕ, f ≤ g → tooth_loop g 7 2 3 = tooth_loop f 7 2 3 :=
  ⟨by norm_num, c8_tooth_loop_terminates 7 2 3 (by norm_num)⟩

/-- C6: a segment whose spacing is at or below the `0.1` threshold is
skipped entirely by tooth emission: it contributes no teeth and no line
elements, and no error is raised (both model functions are total). -/
theorem c6_threshold_skip (startX endX : ℚ) (seg : CombSegment) (xOff ppb : ℚ)
    (h : seg.spacing ≤ 1 / 10) :
    emit_teeth startX endX seg.spacing = [] ∧ segment_line_xs seg xOff ppb = [] := by
  constructor
  · unfold emit_teeth
    rw [if_neg (not_lt.mpr h)]
  · unfold segment_line_xs emit_teeth
    rw [if_neg (not_lt.mpr h)]
    rfl

theorem c6_witness :
    ((⟨0, 100, 1 / 20⟩ : CombSegment)).spacing ≤ 1 / 10 ∧
      (emit_teeth 0 100 ((⟨0, 100, 1 / 20⟩ : CombSegment)).spacing = [] ∧
        segment_line_xs ⟨0, 100, 1 / 20⟩ 0 1 = []) :=
  ⟨by norm_num, c6_threshold_skip 0 100 ⟨0, 100, 1 / 20⟩ 0 1 (by norm_num)⟩

/-- C5: for a segment above the spacing threshold, the first emitted tooth
is the smallest multiple of `spacing` at or above `start_x`
(`ceil(start_x / spacing) * spacing`), successive teeth differ by exactly
`spacing`, emission stops strictly before `end_x`, and the emitted teeth
are exactly the multiples of `spacing` lying in `[ceil(start_x/spacing) *
spacing, end_x)` — the absolute grid, independent of the segment's own
phase. -/
theorem c5_tooth_grid (startX endX spacing : ℚ) (h : 1 / 10 < spacing) :
    (startX ≤ (first_tooth_index startX spacing : ℚ) * spacing ∧
      ∀ k : ℤ, startX ≤ (k : ℚ) * spacing →
        (first_tooth_index startX spacing : ℚ) * spacing ≤ (k : ℚ) * spacing) ∧
    ((first_tooth_index startX spacing : ℚ) * spacing < endX →
      (emit_teeth startX endX spacing).head? =
        some ((first_tooth_index startX spacing : ℚ) * spacing)) ∧
    (endX ≤ (first_tooth_index startX spacing : ℚ) * spacing →
      emit_teeth startX endX spacing = []) ∧
    List.Chain' (fun a b => b = a + spacing) (emit_teeth startX endX spacing) ∧
    (∀ x : ℚ, x ∈ emit_teeth startX endX spacing ↔
      ∃ k : ℤ, x = (k : ℚ) * spacing ∧ startX ≤ x ∧ x < endX) := by
  have hs : (0 : ℚ) < spacing := lt_trans (by norm_num) h
  have hceil : startX ≤ (first_tooth_index startX spacing : ℚ) * spacing := by
    have h1 : startX / spacing ≤ (first_tooth_index startX spacing : ℚ) := Int.le_ceil _
    calc startX = startX / spacing * spacing := by field_simp
    _ ≤ (first_tooth_index startX spacing : ℚ) * spacing :=
        mul_le_mul_of_nonneg_right h1 (le_of_lt hs)
  refine ⟨⟨hceil, ?_⟩, ?_, ?_, ?_, ?_⟩
  · intro k hk
    have h1 : startX / spacing ≤ (k : ℚ) := by
      rw [div_le_iff₀ hs]
      exact hk
    have h2 : first_tooth_index startX spacing ≤ k := by
      unfold first_tooth_index
      exact Int.ceil_le.mpr (by exact_mod_cast h1)
    exact mul_le_mul_of_nonneg_right (by exact_mod_cast h2) (le_of_lt hs)
  · intro hlt
    unfold emit_teeth tooth_fuel
    rw [if_pos h, tooth_loop_succ, if_pos hlt]
    rfl
  · intro hge
    unfold emit_teeth tooth_fuel
    rw [if_pos h, tooth_loop_succ, if_neg (not_lt.mpr hge)]
  · unfold emit_teeth
    rw [if_pos h]
    exact tooth_loop_chain endX spacing _ _
  · intro x
    constructor
    · intro hx
      unfold emit_teeth at hx
      rw [if_pos h] at hx
      obtain ⟨⟨n, hn⟩, hlt⟩ := tooth_loop_mem endX spacing _ _ x hx
      refine ⟨first_tooth_index startX spacing + n, ?_, ?_, hlt⟩
      · rw [hn]; push_cast; ring
      · rw [hn]
        have : (0 : ℚ) ≤ (n : ℚ) * spacing := by positivity
        linarith
    · rintro ⟨k, rfl, hk1, hk2⟩
      unfold emit_teeth
      rw [if_pos h]
      have hik : first_tooth_index startX spacing ≤ k := by
        unfold first_tooth_index
        refine Int.ceil_le.mpr ?_
        rw [div_le_iff₀ hs]
        exact_mod_cast hk1
      set i0 := first_tooth_index startX spacing with hi0
      set n : ℕ := (k - i0).toNat with hn
      have hn' : (n : ℤ) = k - i0 := by
        rw [hn]
        exact Int.toNat_of_nonneg (by omega)
      have hkn : (k : ℚ) = (i0 : ℚ) + (n : ℚ) := by
        have hcast := congrArg (fun z : ℤ => (z : ℚ)) hn'
        push_cast at hcast
        linarith
      have hx : (k : ℚ) * spacing = (i0 : ℚ) * spacing + (n : ℚ) * spacing := by
        rw [hkn]; ring
      rw [hx]
      refine tooth_loop_mem_of endX spacing hs _ n _ ?_ (by rw [← hx]; exact hk2)
      -- n < tooth_fuel startX endX spacing
      have hfuel := tooth_fuel_spec startX endX spacing hs
      by_contra hcon
      push_neg at hcon
      have : (tooth_fuel startX endX spacing : ℚ) ≤ (n : ℚ) := by exact_mod_cast hcon
      have h1 : (i0 : ℚ) * spacing + (tooth_fuel startX endX spacing : ℚ) * spacing ≤
          (i0 : ℚ) * spacing + (n : ℚ) * spacing :=
        add_le_add_left (mul_le_mul_of_nonneg_right this (le_of_lt hs)) _
      rw [← hx] at h1
      exact absurd hk2 (not_lt.mpr (le_trans hfuel h1))

theorem c5_witness :
    (1 : ℚ) / 10 < 2 ∧
      (((3 : ℚ) ≤ (first_tooth_index 3 2 : ℚ) * 2 ∧
        ∀ k : ℤ, (3 : ℚ) ≤ (k : ℚ) * 2 →
          (first_tooth_index 3 2 : ℚ) * 2 ≤ (k : ℚ) * 2) ∧
      ((first_tooth_index 3 2 : ℚ) * 2 < 7 →
        (emit_teeth 3 7 2).head? = some ((first_tooth_index 3 2 : ℚ) * 2)) ∧
      ((7 : ℚ) ≤ (first_tooth_index 3 2 : ℚ) * 2 → emit_teeth 3 7 2 = []) ∧
      List.Chain' (fun a b => b = a + 2) (emit_teeth 3 7 2) ∧
      (∀ x : ℚ, x ∈ emit_teeth 3 7 2 ↔
        ∃ k : ℤ, x = (k : ℚ) * 2 ∧ (3 : ℚ) ≤ x ∧ x < 7)) :=
  ⟨by norm_num, c5_tooth_grid 3 7 2 (by norm_num)⟩

/-! ### Ordering properties of the event sort -/

theorem kindLe_trans : ∀ {a b c : EventType}, kindLe a b → kindLe b c → kindLe a c := by
  intro a b c hab hbc
  cases a <;> cases b <;> cases c <;> trivial

theorem evLe_trans : ∀ {a b c : Event}, evLe a b → evLe b c → evLe a c := by
  intro a b c hab hbc
  rcases hab with h1 | ⟨h1, k1⟩
  · rcases hbc with h2 | ⟨h2, k2⟩
    · exact Or.inl (lt_trans h1 h2)
    · exact Or.inl (h2 ▸ h1)
  · rcases hbc with h2 | ⟨h2, k2⟩
    · exact Or.inl (h1 ▸ h2)
    · exact Or.inr ⟨h1.trans h2, kindLe_trans k1 k2⟩

theorem evLe_of_evLtb {a b : Event} (h : evLtb a b = true) : evLe a b := by
  unfold evLtb at h
  rcases Bool.or_eq_true _ _ |>.mp h with h1 | h2
  · exact Or.inl (of_decide_eq_true h1)
  · rcases Bool.and_eq_true _ _ |>.mp h2 with ⟨h3, h4⟩
    rcases Bool.and_eq_true _ _ |>.mp h3 with ⟨h5, h6⟩
    refine Or.inr ⟨of_decide_eq_true h5, ?_⟩
    rw [of_decide_eq_true h6]
    trivial

theorem evLe_of_not_evLtb {a b : Event} (h : evLtb b a = false) : evLe a b := by
  unfold evLtb at h
  rcases Bool.or_eq_false_iff.mp h with ⟨h1, h2⟩
  have hle : a.time ≤ b.time := not_lt.mp (of_decide_eq_false h1)
  rcases lt_or_eq_of_le hle with hlt | heq
  · exact Or.inl hlt
  · refine Or.inr ⟨heq, ?_⟩
    cases ha : a.kind <;> cases hb : b.kind
    · trivial
    · trivial
    · exfalso
      rcases Bool.and_eq_false_iff.mp h2 with h3 | h4
      · rcases Bool.and_eq_false_iff.mp h3 with h5 | h6
        · exact of_decide_eq_false h5 heq.symm
        · exact of_decide_eq_false h6 hb
      · exact of_decide_eq_false h4 ha
    · trivial

theorem mem_insertEvent (e x : Event) : ∀ l : List Event,
    x ∈ insertEvent e l ↔ x = e ∨ x ∈ l := by
  intro l
  induction l with
  | nil => simp [insertEvent]
  | cons f l ih =>
    unfold insertEvent
    by_cases hf : evLtb f e
    · rw [if_pos hf]
      simp only [List.mem_cons, ih]
      tauto
    · rw [if_neg hf]
      simp only [List.mem_cons]

theorem pairwise_insertEvent (e : Event) : ∀ l : List Event,
    List.Pairwise evLe l → List.Pairwise evLe (insertEvent e l) := by
  intro l
  induction l with
  | nil => intro _; simp [insertEvent]
  | cons f l ih =>
    intro hp
    rcases List.pairwise_cons.mp hp with ⟨hf, hl⟩
    unfold insertEvent
    by_cases hlt : evLtb f e
    · rw [if_pos hlt]
      refine List.pairwise_cons.mpr ⟨?_, ih hl⟩
      intro x hx
      rcases (mem_insertEvent e x l).mp hx with rfl | hx
      · exact evLe_of_evLtb hlt
      · exact hf x hx
    · rw [if_neg hlt]
      have hef : evLe e f := evLe_of_not_evLtb (Bool.of_not_eq_true hlt)
      refine List.pairwise_cons.mpr ⟨?_, hp⟩
      intro x hx
      rcases List.mem_cons.mp hx with rfl | hx
      · exact hef
      · exact evLe_trans hef (hf x hx)

theorem sortEvents_pairwise : ∀ l : List Event, List.Pairwise evLe (sortEvents l) := by
  intro l
  induction l with
  | nil => simp [sortEvents]
  | cons e l ih => exact pairwise_insertEvent e (sortEvents l) ih

/-- C1 (amended): at equal timestamps the sorted event order of
`get_comb_segments` places every `On` event before every `Off` event (the
derived order of `enum EventType { On, Off }` makes `On < Off` and the
sort is ascending); equivalently no `Off` event is applied to the active
set before an `On` event of the same timestamp. -/
theorem c1_on_before_off (notes : List MidiNote) :
    List.Pairwise
      (fun a b : Event => a.time = b.time → ¬(a.kind = EventType.Off ∧ b.kind = EventType.On))
      (sortEvents (eventsOf notes)) := by
  refine (sortEvents_pairwise (eventsOf notes)).imp ?_
  intro a b hab heq hk
  rcases hk with ⟨ha, hb⟩
  rcases hab with hlt | ⟨heq2, hk2⟩
  · exact absurd heq (ne_of_lt hlt)
  · rw [ha, hb] at hk2
    simp [kindLe] at hk2

/-- C1 counterexample: for two back-to-back notes the sorted event
sequence has the `On` event at time `1` strictly before the `Off` event at
time `1`, refuting the claim that all `Off` events at a timestamp are
applied before any `On` event at that timestamp. -/
theorem c1_counterexample :
    ¬ List.Pairwise
      (fun a b : Event => a.time = b.time → ¬(a.kind = EventType.On ∧ b.kind = EventType.Off))
      (sortEvents (eventsOf [⟨60, 0, 1⟩, ⟨60, 1, 1⟩])) := by
  intro hp
  have hs : sortEvents (eventsOf [(⟨60, 0, 1⟩ : MidiNote), ⟨60, 1, 1⟩]) =
      [⟨0, EventType.On, 60⟩, ⟨1, EventType.On, 60⟩, ⟨1, EventType.Off, 60⟩,
        ⟨2, EventType.Off, 60⟩] := by
    norm_num [eventsOf, sortEvents, insertEvent, evLtb]
  rw [hs] at hp
  have h2 := (List.pairwise_cons.mp (List.pairwise_cons.mp hp).2).1
  exact h2 ⟨1, EventType.Off, 60⟩ (by simp) rfl ⟨rfl, rfl⟩

/-- C2: evaluation of the code at the failing input.  Two back-to-back
notes of equal pitch produce a single segment covering only the first
note: at the shared timestamp the `On` event is processed first, and the
following `Off` event then deletes the shared pitch from the set-valued
active structure, so the second note's span is dropped instead of merged. -/
theorem c2_code_behavior :
    build_segments (fun _ => 1) [⟨60, 0, 1⟩, ⟨60, 1, 1⟩] = [⟨0, 1, 1⟩] ∧
      build_segments (fun _ => 1) [⟨60, 0, 1⟩, ⟨60, 1, 1⟩] ≠ [⟨0, 2, 1⟩] := by
  have heval : build_segments (fun _ => 1) [(⟨60, 0, 1⟩ : MidiNote), ⟨60, 1, 1⟩] =
      [⟨0, 1, 1⟩] := by
    unfold build_segments
    rw [if_neg (by simp)]
    norm_num [mergeSegments, mergeLoop, sweepSegments, sweepStep, sortEvents,
      insertEvent, evLtb, eventsOf, listMax, setInsert, setRemove, f32Eps, List.foldl]
  refine ⟨heval, ?_⟩
  rw [heval]
  intro hcon
  have := List.cons.injEq .. ▸ hcon
  simp only [List.cons.injEq] at hcon
  have h1 : (⟨0, 1, 1⟩ : CombSegment) = ⟨0, 2, 1⟩ := hcon.1
  have h2 : (1 : ℚ) = 2 := congrArg CombSegment.end_time h1
  norm_num at h2

/-- C3 counterexample: two notes separated by a silent gap produce two
segments whose shared boundary is not contiguous
(`end_time 1 ≠ start_time 2`), refuting the unconditional contiguity
clause. -/
theorem c3_counterexample :
    build_segments (fun _ => 1) [⟨60, 0, 1⟩, ⟨60, 2, 1⟩] = [⟨0, 1, 1⟩, ⟨2, 3, 1⟩] ∧
      ¬ List.Chain' (fun a b : CombSegment => a.end_time = b.start_time)
        (build_segments (fun _ => 1) [⟨60, 0, 1⟩, ⟨60, 2, 1⟩]) := by
  have heval : build_segments (fun _ => 1) [(⟨60, 0, 1⟩ : MidiNote), ⟨60, 2, 1⟩] =
      [⟨0, 1, 1⟩, ⟨2, 3, 1⟩] := by
    unfold build_segments
    rw [if_neg (by simp)]
    norm_num [mergeSegments, mergeLoop, sweepSegments, sweepStep, sortEvents,
      insertEvent, evLtb, eventsOf, listMax, setInsert, setRemove, f32Eps, List.foldl]
  refine ⟨heval, ?_⟩
  rw [heval]
  intro hc
  have h1 := (List.chain'_cons.mp hc).1
  norm_num at h1

/-! ### Structural invariants of the sweep and merge passes -/

theorem mem_getLast?_mem {α : Type} {l : List α} {x : α} (h : x ∈ l.getLast?) : x ∈ l := by
  obtain ⟨hne, rfl⟩ := List.mem_getLast?_eq_getLast h
  exact List.getLast_mem hne

theorem sweepStep_lastTime (sp : ℕ → ℚ) (st : SweepState) (e : Event) :
    (sweepStep sp st e).lastTime = e.time := rfl

theorem sweepStep_inv (sp : ℕ → ℚ) (hsp : ∀ p, 0 < sp p) (st : SweepState) (e : Event)
    (h1 : ∀ s ∈ st.segments, s.start_time < s.end_time ∧ 0 < s.spacing)
    (h2 : List.Chain' (fun a b : CombSegment => a.end_time ≤ b.start_time) st.segments)
    (h3 : ∀ s ∈ st.segments, s.end_time ≤ st.lastTime)
    (h4 : st.lastTime ≤ e.time) :
    (∀ s ∈ (sweepStep sp st e).segments, s.start_time < s.end_time ∧ 0 < s.spacing) ∧
      List.Chain' (fun a b : CombSegment => a.end_time ≤ b.start_time)
        (sweepStep sp st e).segments ∧
      (∀ s ∈ (sweepStep sp st e).segments, s.end_time ≤ (sweepStep sp st e).lastTime) := by
  rw [sweepStep_lastTime]
  have hsegs : (sweepStep sp st e).segments =
      if st.lastTime < e.time then
        match listMax st.active with
        | some h => st.segments ++ [⟨st.lastTime, e.time, sp h⟩]
        | none => st.segments
      else st.segments := rfl
  by_cases hlt : st.lastTime < e.time
  · rw [if_pos hlt] at hsegs
    cases hmax : listMax st.active with
    | none =>
      rw [hmax] at hsegs
      rw [hsegs]
      exact ⟨h1, h2, fun s hs => le_trans (h3 s hs) h4⟩
    | some hp =>
      rw [hmax] at hsegs
      rw [hsegs]
      refine ⟨?_, ?_, ?_⟩
      · intro s hs
        rcases List.mem_append.mp hs with hs | hs
        · exact h1 s hs
        · rcases List.mem_singleton.mp hs with rfl
          exact ⟨hlt, hsp hp⟩
      · refine List.chain'_append.mpr ⟨h2, List.chain'_singleton _, ?_⟩
        intro x hx y hy
        rcases List.mem_singleton.mp (by simpa using hy) with rfl
        exact h3 x (mem_getLast?_mem hx)
      · intro s hs
        rcases List.mem_append.mp hs with hs | hs
        · exact le_trans (h3 s hs) h4
        · rcases List.mem_singleton.mp hs with rfl
          exact le_refl _
  · rw [if_neg hlt] at hsegs
    rw [hsegs]
    exact ⟨h1, h2, fun s hs => le_trans (h3 s hs) h4⟩

theorem sweep_fold_inv (sp : ℕ → ℚ) (hsp : ∀ p, 0 < sp p) :
    ∀ (evs : List Event) (st : SweepState),
      List.Chain' (fun a b : Event => a.time ≤ b.time) evs →
      (∀ e0 ∈ evs.head?, st.lastTime ≤ e0.time) →
      (∀ s ∈ st.segments, s.start_time < s.end_time ∧ 0 < s.spacing) →
      List.Chain' (fun a b : CombSegment => a.end_time ≤ b.start_time) st.segments →
      (∀ s ∈ st.segments, s.end_time ≤ st.lastTime) →
      (∀ s ∈ (evs.foldl (sweepStep sp) st).segments,
          s.start_time < s.end_time ∧ 0 < s.spacing) ∧
        List.Chain' (fun a b : CombSegment => a.end_time ≤ b.start_time)
          (evs.foldl (sweepStep sp) st).segments := by
  intro evs
  induction evs with
  | nil => intro st _ _ h1 h2 _; exact ⟨h1, h2⟩
  | cons e evs ih =>
    intro st hchain hhead h1 h2 h3
    rw [List.foldl_cons]
    have h4 : st.lastTime ≤ e.time := hhead e rfl
    obtain ⟨g1, g2, g3⟩ := sweepStep_inv sp hsp st e h1 h2 h3 h4
    refine ih (sweepStep sp st e) hchain.tail ?_ g1 g2 g3
    intro e0 he0
    rw [sweepStep_lastTime]
    exact (List.chain'_cons'.mp hchain).1 e0 he0

theorem mergeLoop_head (l : List CombSegment) : ∀ cur : CombSegment,
    ∃ s t, mergeLoop cur l = s :: t ∧
      s.start_time = cur.start_time ∧ s.spacing = cur.spacing := by
  induction l with
  | nil => intro cur; exact ⟨cur, [], rfl, rfl, rfl⟩
  | cons next rest ih =>
    intro cur
    unfold mergeLoop
    by_cases hc : abs (next.spacing - cur.spacing) < f32Eps ∧
        abs (next.start_time - cur.end_time) < f32Eps
    · rw [if_pos hc]
      obtain ⟨s, t, heq, hs1, hs2⟩ := ih ⟨cur.start_time, next.end_time, cur.spacing⟩
      exact ⟨s, t, heq, hs1, hs2⟩
    · rw [if_neg hc]
      exact ⟨cur, mergeLoop next rest, rfl, rfl, rfl⟩

theorem mergeLoop_inv : ∀ (l : List CombSegment) (cur : CombSegment),
    (∀ s ∈ l, s.start_time < s.end_time ∧ 0 < s.spacing) →
    (cur.start_time < cur.end_time ∧ 0 < cur.spacing) →
    List.Chain' (fun a b : CombSegment => a.end_time ≤ b.start_time) (cur :: l) →
    (∀ s ∈ mergeLoop cur l, s.start_time < s.end_time ∧ 0 < s.spacing) ∧
      List.Chain' (fun a b : CombSegment => a.end_time ≤ b.start_time) (mergeLoop cur l) ∧
      List.Chain' (fun a b : CombSegment =>
        ¬(abs (b.spacing - a.spacing) < f32Eps ∧ abs (b.start_time - a.end_time) < f32Eps))
        (mergeLoop cur l) := by
  intro l
  induction l with
  | nil =>
    intro cur _ hcur _
    refine ⟨?_, List.chain'_singleton _, List.chain'_singleton _⟩
    intro s hs
    rcases List.mem_singleton.mp hs with rfl
    exact hcur
  | cons next rest ih =>
    intro cur hall hcur hchain
    have hcn : cur.end_time ≤ next.start_time := (List.chain'_cons.mp hchain).1
    have hrest : List.Chain' (fun a b : CombSegment => a.end_time ≤ b.start_time)
        (next :: rest) := (List.chain'_cons.mp hchain).2
    have hnext := hall next (List.mem_cons_self next rest)
    unfold mergeLoop
    by_cases hc : abs (next.spacing - cur.spacing) < f32Eps ∧
        abs (next.start_time - cur.end_time) < f32Eps
    · rw [if_pos hc]
      refine ih ⟨cur.start_time, next.end_time, cur.spacing⟩ ?_ ?_ ?_
      · intro s hs
        exact hall s (List.mem_cons_of_mem _ hs)
      · exact ⟨lt_of_lt_of_le hcur.1 (le_trans hcn (le_of_lt hnext.1)), hcur.2⟩
      · refine List.chain'_cons'.mpr ⟨?_, hrest.tail⟩
        intro y hy
        exact (List.chain'_cons'.mp hrest).1 y hy
    · rw [if_neg hc]
      obtain ⟨g1, g2, g3⟩ := ih next (fun s hs => hall s (List.mem_cons_of_mem _ hs))
        hnext hrest
      obtain ⟨s0, t0, heq, hs1, hs2⟩ := mergeLoop_head rest next
      refine ⟨?_, ?_, ?_⟩
      · intro s hs
        rcases List.mem_cons.mp hs with rfl | hs
        · exact hcur
        · exact g1 s hs
      · refine List.chain'_cons'.mpr ⟨?_, g2⟩
        intro y hy
        rw [heq] at hy
        simp only [List.head?_cons, Option.mem_def, Option.some.injEq] at hy
        rw [← hy, hs1]
        exact hcn
      · refine List.chain'_cons'.mpr ⟨?_, g3⟩
        intro y hy
        rw [heq] at hy
        simp only [List.head?_cons, Option.mem_def, Option.some.injEq] at hy
        rw [← hy]
        rw [hs1, hs2]
        exact hc

/-- C3 (amended): for a positive spacing model, every segment list built
by `get_comb_segments` consists of segments with `start_time < end_time`
and positive spacing, ordered and non-overlapping
(`end_time ≤` the next `start_time`; equality — contiguity — holds within
a span of continuously sounding notes, while a silent gap leaves
`end_time <` the next `start_time`), and after the merge pass two
adjacent contiguous segments always have different spacings. -/
theorem c3_segment_invariants (sp : ℕ → ℚ) (notes : List MidiNote) (hsp : ∀ p, 0 < sp p) :
    (∀ s ∈ build_segments sp notes, s.start_time < s.end_time ∧ 0 < s.spacing) ∧
      List.Chain' (fun a b : CombSegment => a.end_time ≤ b.start_time)
        (build_segments sp notes) ∧
      List.Chain' (fun a b : CombSegment => a.end_time = b.start_time → a.spacing ≠ b.spacing)
        (build_segments sp notes) := by
  unfold build_segments
  by_cases hn : notes = []
  · rw [if_pos hn]
    simp
  · rw [if_neg hn]
    have hpair : List.Pairwise (fun a b : Event => a.time ≤ b.time)
        (sortEvents (eventsOf notes)) := by
      refine (sortEvents_pairwise (eventsOf notes)).imp ?_
      intro a b hab
      rcases hab with h | ⟨h, _⟩
      · exact le_of_lt h
      · exact le_of_eq h
    have hchain := hpair.chain'
    cases hevs : sortEvents (eventsOf notes) with
    | nil =>
      simp [sweepSegments, mergeSegments]
    | cons e rest =>
      rw [hevs] at hchain
      have hsweep := sweep_fold_inv sp hsp (e :: rest) ⟨[], [], e.time⟩ hchain
        (by intro e0 he0; simp only [List.head?_cons, Option.mem_def, Option.some.injEq] at he0
            rw [← he0])
        (by simp) (by simp) (by simp)
      have hseg_eq : sweepSegments sp (e :: rest) =
          (List.foldl (sweepStep sp) ⟨[], [], e.time⟩ (e :: rest)).segments := rfl
      obtain ⟨g1, g2⟩ := hsweep
      rw [← hseg_eq] at g1 g2
      cases hss : sweepSegments sp (e :: rest) with
      | nil =>
        simp [mergeSegments]
      | cons s0 srest =>
        rw [hss] at g1 g2
        have hm := mergeLoop_inv srest s0
          (fun s hs => g1 s (List.mem_cons_of_mem _ hs))
          (g1 s0 (List.mem_cons_self s0 srest)) g2
        obtain ⟨m1, m2, m3⟩ := hm
        have hms : mergeSegments (s0 :: srest) = mergeLoop s0 srest := rfl
        rw [hms]
        refine ⟨m1, m2, ?_⟩
        refine m3.imp ?_
        intro a b hab heq hsp_eq
        refine hab ⟨?_, ?_⟩
        · rw [hsp_eq]
          simp only [sub_self, abs_zero]
          norm_num [f32Eps]
        · rw [← heq]
          simp only [sub_self, abs_zero]
          norm_num [f32Eps]

theorem c3_witness :
    (∀ p : ℕ, 0 < (fun _ : ℕ => (1 : ℚ)) p) ∧
      ((∀ s ∈ build_segments (fun _ => 1) [⟨60, 0, 1⟩, ⟨60, 2, 1⟩],
          s.start_time < s.end_time ∧ 0 < s.spacing) ∧
        List.Chain' (fun a b : CombSegment => a.end_time ≤ b.start_time)
          (build_segments (fun _ => 1) [⟨60, 0, 1⟩, ⟨60, 2, 1⟩]) ∧
        List.Chain' (fun a b : CombSegment => a.end_time = b.start_time → a.spacing ≠ b.spacing)
          (build_segments (fun _ => 1) [⟨60, 0, 1⟩, ⟨60, 2, 1⟩])) :=
  ⟨fun _ => by norm_num,
    c3_segment_invariants (fun _ => 1) [⟨60, 0, 1⟩, ⟨60, 2, 1⟩] (fun _ => by norm_num)⟩

/-! ### The nested-overlap scenario -/

/-- C4: for two overlapping notes where the higher-pitched note's interval
lies strictly inside the lower-pitched note's interval (and the two
pitches' spacings differ by at least the merge epsilon, as they always do
for the wavelength spacing model at distinct pitches in the calibration
range), `build_segments` returns exactly three segments: the lower pitch
before the overlap, the higher pitch during it, and the lower pitch after
it, with boundaries at the inner note's start and end. -/
theorem c4_nested_overlap (sp : ℕ → ℚ) (pl ph : ℕ) (s1 d1 s2 d2 : ℚ)
    (hp : pl < ph) (h12 : s1 < s2) (hd2 : 0 < d2) (hin : s2 + d2 < s1 + d1)
    (heps : f32Eps ≤ abs (sp ph - sp pl)) :
    build_segments sp [⟨pl, s1, d1⟩, ⟨ph, s2, d2⟩] =
      [⟨s1, s2, sp pl⟩, ⟨s2, s2 + d2, sp ph⟩, ⟨s2 + d2, s1 + d1, sp pl⟩] := by
  have h23 : s2 < s2 + d2 := by linarith
  have h2e1 : s2 < s1 + d1 := by linarith
  have hne1 : ¬ (s2 + d2 < s2) := by linarith
  have hne4 : ¬ (s2 < s1) := by linarith
  have hb1 : evLtb ⟨s2 + d2, EventType.Off, ph⟩ ⟨s2, EventType.On, ph⟩ = false := by
    simp [evLtb, hne1]
  have hb2 : evLtb ⟨s2, EventType.On, ph⟩ ⟨s1 + d1, EventType.Off, pl⟩ = true := by
    simp [evLtb, h2e1]
  have hb3 : evLtb ⟨s2 + d2, EventType.Off, ph⟩ ⟨s1 + d1, EventType.Off, pl⟩ = true := by
    simp [evLtb, hin]
  have hb4 : evLtb ⟨s2, EventType.On, ph⟩ ⟨s1, EventType.On, pl⟩ = false := by
    simp [evLtb, hne4]
  have hsort : sortEvents (eventsOf [⟨pl, s1, d1⟩, ⟨ph, s2, d2⟩]) =
      [⟨s1, EventType.On, pl⟩, ⟨s2, EventType.On, ph⟩, ⟨s2 + d2, EventType.Off, ph⟩,
        ⟨s1 + d1, EventType.Off, pl⟩] := by
    simp [eventsOf, sortEvents, insertEvent, hb1, hb2, hb3, hb4]
  have hsweep : sweepSegments sp
      [⟨s1, EventType.On, pl⟩, ⟨s2, EventType.On, ph⟩, ⟨s2 + d2, EventType.Off, ph⟩,
        ⟨s1 + d1, EventType.Off, pl⟩] =
      [⟨s1, s2, sp pl⟩, ⟨s2, s2 + d2, sp ph⟩, ⟨s2 + d2, s1 + d1, sp pl⟩] := by
    simp [sweepSegments, sweepStep, listMax, setInsert, setRemove, List.foldl,
      h12, h23, hin, Nat.max_eq_left (le_of_lt hp), hp.ne']
  have hc1 : ¬(abs (sp ph - sp pl) < f32Eps ∧ abs (s2 - s2) < f32Eps) := by
    rintro ⟨h1, -⟩
    exact absurd h1 (not_lt.mpr heps)
  have hc2 : ¬(abs (sp pl - sp ph) < f32Eps ∧ abs (s2 + d2 - (s2 + d2)) < f32Eps) := by
    rintro ⟨h1, -⟩
    rw [abs_sub_comm] at h1
    exact absurd h1 (not_lt.mpr heps)
  have hmerge : mergeSegments
      [⟨s1, s2, sp pl⟩, ⟨s2, s2 + d2, sp ph⟩, ⟨s2 + d2, s1 + d1, sp pl⟩] =
      [⟨s1, s2, sp pl⟩, ⟨s2, s2 + d2, sp ph⟩, ⟨s2 + d2, s1 + d1, sp pl⟩] := by
    simp only [mergeSegments, mergeLoop]
    rw [if_neg hc1, if_neg hc2]
  unfold build_segments
  rw [if_neg (by simp), hsort, hsweep, hmerge]

theorem c4_witness :
    (50 < 60 ∧ (0 : ℚ) < 1 ∧ (0 : ℚ) < 2 ∧ (1 : ℚ) + 2 < 0 + 4 ∧
        f32Eps ≤ abs ((fun p : ℕ => (p : ℚ)) 60 - (fun p : ℕ => (p : ℚ)) 50)) ∧
      build_segments (fun p : ℕ => (p : ℚ)) [⟨50, 0, 4⟩, ⟨60, 1, 2⟩] =
        [⟨0, 1, 50⟩, ⟨1, 3, 60⟩, ⟨3, 4, 50⟩] := by
  refine ⟨⟨by norm_num, by norm_num, by norm_num, by norm_num, by norm_num [f32Eps]⟩, ?_⟩
  have h := c4_nested_overlap (fun p : ℕ => (p : ℚ)) 50 60 0 4 1 2
    (by norm_num) (by norm_num) (by norm_num) (by norm_num) (by norm_num [f32Eps])
  norm_num at h
  exact h

/-! ### The spacing model over the reals -/

theorem noteFreq_pos (x : ℝ) : 0 < noteFreq x := by
  unfold noteFreq
  positivity

/-- C7: `calculate_spacing` equals `ref_spacing * f(ref_pitch) / f(p)` for
`f(p) = 440 * 2^((p - 69)/12)`; it is strictly decreasing in the pitch for
a positive reference spacing; and at reference pitch `60`, reference
spacing `10`, the spacing of pitch `72` is exactly `5` (the `f32` code
computes this only approximately). -/
theorem c7_spacing_model (ref_note : ℤ) (ref_spacing : ℚ) (p q : ℕ)
    (hs : 0 < ref_spacing) (hpq : p < q) :
    calculate_spacing ref_note (ref_spacing : ℝ) p =
        (ref_spacing : ℝ) * noteFreq (ref_note : ℝ) / noteFreq (p : ℝ) ∧
      calculate_spacing ref_note (ref_spacing : ℝ) q <
        calculate_spacing ref_note (ref_spacing : ℝ) p ∧
      calculate_spacing 60 10 72 = 5 := by
  have hs' : (0 : ℝ) < (ref_spacing : ℝ) := by exact_mod_cast hs
  refine ⟨by unfold calculate_spacing; ring, ?_, ?_⟩
  · have hmono : noteFreq (p : ℝ) < noteFreq (q : ℝ) := by
      unfold noteFreq
      have hpq' : (p : ℝ) < (q : ℝ) := by exact_mod_cast hpq
      have hexp : ((p : ℝ) - 69) / 12 < ((q : ℝ) - 69) / 12 := by linarith
      have h := (Real.rpow_lt_rpow_left_iff one_lt_two).mpr hexp
      exact mul_lt_mul_of_pos_left h (by norm_num)
    have hdiv : noteFreq (ref_note : ℝ) / noteFreq (q : ℝ) <
        noteFreq (ref_note : ℝ) / noteFreq (p : ℝ) :=
      div_lt_div_of_pos_left (noteFreq_pos _) (noteFreq_pos _) hmono
    unfold calculate_spacing
    exact mul_lt_mul_of_pos_left hdiv hs'
  · unfold calculate_spacing noteFreq
    have hc1 : (((60 : ℤ) : ℝ) - 69) / 12 = (-(3 : ℝ)) / 4 := by norm_num
    have hc2 : (((72 : ℕ) : ℝ) - 69) / 12 = (1 : ℝ) / 4 := by norm_num
    rw [hc1, hc2, mul_div_mul_left _ _ (by norm_num : (440 : ℝ) ≠ 0),
      ← Real.rpow_sub (by norm_num : (0 : ℝ) < 2)]
    rw [show (-(3 : ℝ)) / 4 - 1 / 4 = ((-1 : ℤ) : ℝ) by norm_num]
    rw [Real.rpow_intCast]
    norm_num

theorem c7_witness :
    (0 < (10 : ℚ) ∧ 60 < 72) ∧
      (calculate_spacing 60 ((10 : ℚ) : ℝ) 60 =
          ((10 : ℚ) : ℝ) * noteFreq ((60 : ℤ) : ℝ) / noteFreq ((60 : ℕ) : ℝ) ∧
        calculate_spacing 60 ((10 : ℚ) : ℝ) 72 < calculate_spacing 60 ((10 : ℚ) : ℝ) 60 ∧
        calculate_spacing 60 10 72 = 5) :=
  ⟨⟨by norm_num, by norm_num⟩, c7_spacing_model 60 10 60 72 (by norm_num) (by norm_num)⟩

/-! ### The exported document -/

/-- C9: when no file is loaded, the selected track index is out of range,
or the selected track has no notes, `generate_svg` returns exactly the
fixed empty document with no line elements (and the list of emitted line
coordinates is empty). -/
theorem c9_empty_svg (sp : ℕ → ℚ) (v : MidiVisualizer)
    (h : v.tracks = none ∨
      ∃ ts, v.tracks = some ts ∧
        (ts.length ≤ v.selected_track ∨
          ∃ td, ts[v.selected_track]? = some td ∧ td.notes = [])) :
    generate_svg sp v =
        "<svg xmlns=\"http://www.w3.org/2000/svg\" width=\"50\" height=\"100\"></svg>" ∧
      svg_line_xs sp v = [] := by
  have hsegs : get_comb_segments sp v = [] := by
    rcases h with h | ⟨ts, hts, h⟩
    · simp [get_comb_segments, h]
    · rcases h with h | ⟨td, htd, hnotes⟩
      · simp [get_comb_segments, hts, List.getElem?_eq_none h]
      · simp [get_comb_segments, hts, htd, build_segments, hnotes]
  constructor
  · unfold generate_svg
    rw [hsegs]
    rfl
  · unfold svg_line_xs
    rw [hsegs]

theorem c9_witness :
    (MidiVisualizer.tracks ⟨none, 0, 60, 10, 200⟩ = none) ∧
      (generate_svg (fun _ => 1) ⟨none, 0, 60, 10, 200⟩ =
          "<svg xmlns=\"http://www.w3.org/2000/svg\" width=\"50\" height=\"100\"></svg>" ∧
        svg_line_xs (fun _ => 1) ⟨none, 0, 60, 10, 200⟩ = []) :=
  ⟨rfl, c9_empty_svg (fun _ => 1) ⟨none, 0, 60, 10, 200⟩ (Or.inl rfl)⟩

/-! ### Properties of the emitted line coordinates -/

theorem emit_teeth_grid (startX endX spacing : ℚ) (h : 1 / 10 < spacing) {x : ℚ}
    (hx : x ∈ emit_teeth startX endX spacing) : ∃ k : ℤ, x = (k : ℚ) * spacing := by
  unfold emit_teeth at hx
  rw [if_pos h] at hx
  obtain ⟨⟨n, hn⟩, -⟩ := tooth_loop_mem endX spacing _ _ x hx
  refine ⟨first_tooth_index startX spacing + n, ?_⟩
  rw [hn]
  push_cast
  ring

theorem mem_concatLists {x : ℚ} : ∀ {L : List (List ℚ)}, x ∈ concatLists L → ∃ l ∈ L, x ∈ l := by
  intro L
  induction L with
  | nil => intro h; simp [concatLists] at h
  | cons l ls ih =>
    intro h
    rcases List.mem_append.mp (by simpa [concatLists] using h) with h | h
    · exact ⟨l, List.mem_cons_self _ _, h⟩
    · obtain ⟨l2, hl2, hx⟩ := ih h
      exact ⟨l2, List.mem_cons_of_mem _ hl2, hx⟩

theorem chain_filter_ge (s c : ℚ) (hs : 0 ≤ s) :
    ∀ l : List ℚ, List.Chain' (fun a b => b = a + s) l →
      List.Chain' (fun a b => b = a + s) (l.filter (fun x => decide (c ≤ x))) := by
  intro l
  induction l with
  | nil => intro _; simp
  | cons a t ih =>
    intro hc
    have ht := (List.chain'_cons'.mp hc).2
    have hrel := (List.chain'_cons'.mp hc).1
    by_cases hpa : c ≤ a
    · rw [List.filter_cons_of_pos (by simpa using hpa)]
      cases t with
      | nil => simp
      | cons b t2 =>
        have hb : b = a + s := hrel b rfl
        have hpb : c ≤ b := by rw [hb]; linarith
        have hfil : List.filter (fun x => decide (c ≤ x)) (b :: t2) =
            b :: List.filter (fun x => decide (c ≤ x)) t2 :=
          List.filter_cons_of_pos (by simpa using hpb)
        rw [hfil]
        refine List.chain'_cons'.mpr ⟨?_, ?_⟩
        · intro y hy
          have := ih ht
          rw [hfil] at this
          simp only [List.head?_cons, Option.mem_def, Option.some.injEq] at hy
          rw [← hy]
          exact hb
        · have := ih ht
          rw [hfil] at this
          exact this
    · rw [List.filter_cons_of_neg (by simpa using hpa)]
      exact ih ht

/-- C10: every line x-coordinate written by `generate_svg` is an absolute
tooth position translated by `x_offset` (the first segment's start time
scaled by `px_per_beat`); positions further than `f32::EPSILON` before the
offset are filtered out without reseeding the stepping, so every emitted
coordinate is at least `-f32::EPSILON` and consecutive emitted teeth of
one segment still differ by exactly that segment's spacing. -/
theorem c10_line_coordinates (sp : ℕ → ℚ) (v : MidiVisualizer) (s0 : CombSegment)
    (rest : List CombSegment) (h : get_comb_segments sp v = s0 :: rest) :
    svg_line_xs sp v = concatLists ((s0 :: rest).map
        (fun seg => segment_line_xs seg (s0.start_time * v.px_per_beat) v.px_per_beat)) ∧
      (∀ x ∈ svg_line_xs sp v, -f32Eps ≤ x) ∧
      (∀ seg ∈ s0 :: rest,
        List.Chain' (fun a b => b = a + seg.spacing)
          (segment_line_xs seg (s0.start_time * v.px_per_beat) v.px_per_beat)) ∧
      (∀ seg ∈ s0 :: rest,
        ∀ x ∈ segment_line_xs seg (s0.start_time * v.px_per_beat) v.px_per_beat,
          ∃ k : ℤ, x = (k : ℚ) * seg.spacing - s0.start_time * v.px_per_beat) := by
  have heq : svg_line_xs sp v = concatLists ((s0 :: rest).map
      (fun seg => segment_line_xs seg (s0.start_time * v.px_per_beat) v.px_per_beat)) := by
    unfold svg_line_xs
    rw [h]
  refine ⟨heq, ?_, ?_, ?_⟩
  · intro x hx
    rw [heq] at hx
    obtain ⟨l, hl, hxl⟩ := mem_concatLists hx
    obtain ⟨seg, hseg, rfl⟩ := List.mem_map.mp hl
    unfold segment_line_xs at hxl
    have h2 := (List.mem_filter.mp hxl).2
    simpa using h2
  · intro seg hseg
    unfold segment_line_xs
    by_cases hspc : 1 / 10 < seg.spacing
    · have hchain0 : List.Chain' (fun a b => b = a + seg.spacing)
          (emit_teeth (seg.start_time * v.px_per_beat) (seg.end_time * v.px_per_beat)
            seg.spacing) := by
        unfold emit_teeth
        rw [if_pos hspc]
        exact tooth_loop_chain _ _ _ _
      have hmap : List.Chain' (fun a b => b = a + seg.spacing)
          ((emit_teeth (seg.start_time * v.px_per_beat) (seg.end_time * v.px_per_beat)
              seg.spacing).map (fun x => x - s0.start_time * v.px_per_beat)) := by
        rw [List.chain'_map]
        refine hchain0.imp ?_
        intro a b hab
        rw [hab]
        ring
      exact chain_filter_ge seg.spacing (-f32Eps) (by linarith) _ hmap
    · unfold emit_teeth
      rw [if_neg hspc]
      simp
  · intro seg hseg x hx
    unfold segment_line_xs at hx
    have hx1 := (List.mem_filter.mp hx).1
    obtain ⟨y, hy, rfl⟩ := List.mem_map.mp hx1
    by_cases hspc : 1 / 10 < seg.spacing
    · obtain ⟨k, hk⟩ := emit_teeth_grid _ _ _ hspc hy
      exact ⟨k, by rw [hk]⟩
    · unfold emit_teeth at hy
      rw [if_neg hspc] at hy
      simp at hy

theorem c10_witness :
    get_comb_segments (fun _ => 1) ⟨some [⟨"t", [⟨60, 1, 1⟩]⟩], 0, 60, 10, 2⟩ =
        [⟨1, 2, 1⟩] ∧
      (svg_line_xs (fun _ => 1) ⟨some [⟨"t", [⟨60, 1, 1⟩]⟩], 0, 60, 10, 2⟩ =
          concatLists (((⟨1, 2, 1⟩ : CombSegment) :: []).map
            (fun seg => segment_line_xs seg
              ((⟨1, 2, 1⟩ : CombSegment).start_time *
                (⟨some [⟨"t", [⟨60, 1, 1⟩]⟩], 0, 60, 10, 2⟩ : MidiVisualizer).px_per_beat)
              (⟨some [⟨"t", [⟨60, 1, 1⟩]⟩], 0, 60, 10, 2⟩ : MidiVisualizer).px_per_beat)) ∧
        (∀ x ∈ svg_line_xs (fun _ => 1) ⟨some [⟨"t", [⟨60, 1, 1⟩]⟩], 0, 60, 10, 2⟩,
          -f32Eps ≤ x) ∧
        (∀ seg ∈ (⟨1, 2, 1⟩ : CombSegment) :: [],
          List.Chain' (fun a b => b = a + seg.spacing)
            (segment_line_xs seg
              ((⟨1, 2, 1⟩ : CombSegment).start_time *
                (⟨some [⟨"t", [⟨60, 1, 1⟩]⟩], 0, 60, 10, 2⟩ : MidiVisualizer).px_per_beat)
              (⟨some [⟨"t", [⟨60, 1, 1⟩]⟩], 0, 60, 10, 2⟩ : MidiVisualizer).px_per_beat)) ∧
        (∀ seg ∈ (⟨1, 2, 1⟩ : CombSegment) :: [],
          ∀ x ∈ segment_line_xs seg
              ((⟨1, 2, 1⟩ : CombSegment).start_time *
                (⟨some [⟨"t", [⟨60, 1, 1⟩]⟩], 0, 60, 10, 2⟩ : MidiVisualizer).px_per_beat)
              (⟨some [⟨"t", [⟨60, 1, 1⟩]⟩], 0, 60, 10, 2⟩ : MidiVisualizer).px_per_beat,
            ∃ k : ℤ, x = (k : ℚ) * seg.spacing -
              (⟨1, 2, 1⟩ : CombSegment).start_time *
                (⟨some [⟨"t", [⟨60, 1, 1⟩]⟩], 0, 60, 10, 2⟩ : MidiVisualizer).px_per_beat)) := by
  have hbs : build_segments (fun _ => 1) [⟨60, 1, 1⟩] = [⟨1, 2, 1⟩] := by
    unfold build_segments
    rw [if_neg (by simp)]
    norm_num [mergeSegments, mergeLoop, sweepSegments, sweepStep, sortEvents,
      insertEvent, evLtb, eventsOf, listMax, setInsert, setRemove, f32Eps, List.foldl]
  have hget : get_comb_segments (fun _ => 1)
      ⟨some [⟨"t", [⟨60, 1, 1⟩]⟩], 0, 60, 10, 2⟩ = [⟨1, 2, 1⟩] := by
    simp [get_comb_segments, hbs]
  exact ⟨hget, c10_line_coordinates (fun _ => 1)
    ⟨some [⟨"t", [⟨60, 1, 1⟩]⟩], 0, 60, 10, 2⟩ ⟨1, 2, 1⟩ [] hget⟩

end MusicComb
